import Mathlib

/-!
Verification of the Vyukov-style bounded MPMC lock-free queue
(stl::LockFreeQueue in lock_free_queue.h) against its specification.

The queue is shallowly embedded as a state record over unbounded naturals,
with all size_t arithmetic performed explicitly modulo 2^64:
the two cursors, every per-cell sequence counter, and the signed
difference computation (intptr_t)seq - (intptr_t)pos are modelled exactly
as the source performs them.  The CAS retry loops of try_push and try_pop
are modelled with an explicit fuel parameter; a deterministic
single-threaded execution resolves every operation in one iteration,
which the reachability invariant below establishes.
-/

namespace LFQueue

/-- 2^64: the modulus of size_t arithmetic on the target platform. -/
def W : Nat := 2 ^ 64

/-- 2^63: the magnitude bound of intptr_t. -/
def HALF : Nat := 2 ^ 63

/-- The signed difference computed by the source as
(intptr_t)a - (intptr_t)b on size_t operands: the representative of
a - b modulo 2^64 lying in the interval from -(2^63) to 2^63 - 1. -/
def wdiff (a b : Nat) : Int :=
  ((a : Int) - (b : Int) + (HALF : Int)) % (W : Int) - (HALF : Int)

/-- The MASK constant of the source: Capacity - 1 computed in size_t
arithmetic (so it wraps for Capacity = 0). -/
def MASKv (Cap : Nat) : Nat := (Cap + (W - 1)) % W

/-- The static_assert condition of the source,
(Capacity & (Capacity - 1)) == 0, with the subtraction performed in
size_t arithmetic. -/
def capacityCheck (Cap : Nat) : Bool := (Cap &&& MASKv Cap) == 0

/-- State of stl::LockFreeQueue: per-cell sequence counters, per-cell
stored data (payloads are modelled as naturals), and the two cursors
enqueue_index_ and dequeue_index_.  Cells are a function from index;
only indices below Capacity are ever accessed (through masking). -/
structure LFQ where
  seq : Nat → Nat
  data : Nat → Nat
  enq : Nat
  deq : Nat

/-- Pointwise update of a cell array. -/
def updF (f : Nat → Nat) (i v : Nat) : Nat → Nat :=
  fun j => if j = i then v else f j

/-- The constructor: every cell sequence counter holds its own index,
both cursors are zero, and cell data is default-constructed (0). -/
def mkQueue : LFQ :=
  { seq := fun i => i, data := fun _ => 0, enq := 0, deq := 0 }

/-- The retry loop of try_push, with explicit fuel bounding the number
of iterations.  Each iteration mirrors the source: read the cell at
pos & MASK, read its sequence counter, compute the signed difference
with pos; on 0 attempt the CAS on enqueue_index_ (comparing with pos,
on success writing the value and publishing seq = pos + 1); on a
negative difference report full; otherwise reload the cursor and
retry. -/
def tryPushLoop (Cap v : Nat) : Nat → LFQ → Nat → Option (LFQ × Bool)
  | 0, _, _ => none
  | fuel + 1, q, pos =>
      let idx := pos &&& MASKv Cap
      let sq := q.seq idx
      let diff := wdiff sq pos
      if diff = 0 then
        if q.enq = pos then
          some ({ seq := updF q.seq idx ((pos + 1) % W),
                  data := updF q.data idx v,
                  enq := (pos + 1) % W,
                  deq := q.deq }, true)
        else
          tryPushLoop Cap v fuel q q.enq
      else if diff < 0 then
        some (q, false)
      else
        tryPushLoop Cap v fuel q q.enq

/-- try_push: run the loop starting from the loaded enqueue cursor. -/
def tryPush (Cap v fuel : Nat) (q : LFQ) : Option (LFQ × Bool) :=
  tryPushLoop Cap v fuel q q.enq

/-- The retry loop of try_pop, with explicit fuel.  Each iteration
mirrors the source: read the cell at pos & MASK, compute the signed
difference of its sequence counter with pos + 1; on 0 attempt the CAS
on dequeue_index_ (on success read the data out into the out-parameter
and republish seq = pos + MASK + 1); on a negative difference report
empty (leaving the out-parameter untouched); otherwise reload and
retry. -/
def tryPopLoop (Cap : Nat) : Nat → LFQ → Nat → Nat → Option (LFQ × Bool × Nat)
  | 0, _, _, _ => none
  | fuel + 1, q, pos, item =>
      let idx := pos &&& MASKv Cap
      let sq := q.seq idx
      let diff := wdiff sq (pos + 1)
      if diff = 0 then
        if q.deq = pos then
          some ({ seq := updF q.seq idx ((pos + MASKv Cap + 1) % W),
                  data := q.data,
                  enq := q.enq,
                  deq := (pos + 1) % W }, true, q.data idx)
        else
          tryPopLoop Cap fuel q q.deq item
      else if diff < 0 then
        some (q, false, item)
      else
        tryPopLoop Cap fuel q q.deq item

/-- try_pop: run the loop starting from the loaded dequeue cursor.
The trailing natural is the callers out-parameter, threaded through so
that its final value is observable. -/
def tryPop (Cap fuel : Nat) (q : LFQ) (item : Nat) : Option (LFQ × Bool × Nat) :=
  tryPopLoop Cap fuel q q.deq item

/-- A single-threaded call: either try_push of a value or try_pop. -/
inductive Op where
  | push (v : Nat)
  | pop
deriving DecidableEq

/-- The observable result of one call: the boolean outcome of a push
(paired with the value the caller offered), or the boolean outcome of a
pop together with the final value of the out-parameter. -/
inductive Res where
  | pushR (v : Nat) (ok : Bool)
  | popR (ok : Bool) (out : Nat)
deriving DecidableEq

/-- Execute one call against the state (the pop out-parameter starts
at 0, the default-constructed value). -/
def stepOp (Cap fuel : Nat) (q : LFQ) : Op → Option (LFQ × Res)
  | Op.push v => (tryPush Cap v fuel q).map fun r => (r.1, Res.pushR v r.2)
  | Op.pop => (tryPop Cap fuel q 0).map fun r => (r.1, Res.popR r.2.1 r.2.2)

/-- Execute a single-threaded sequence of calls, collecting results. -/
def run (Cap fuel : Nat) : LFQ → List Op → Option (LFQ × List Res)
  | q, [] => some (q, [])
  | q, op :: ops =>
      match stepOp Cap fuel q op with
      | none => none
      | some (q', r) => (run Cap fuel q' ops).map fun x => (x.1, r :: x.2)

/-- The values carried by the successful pushes of a result list. -/
def pushedVals (rs : List Res) : List Nat :=
  rs.filterMap fun r =>
    match r with
    | Res.pushR v true => some v
    | _ => none

/-- The values returned by the successful pops of a result list. -/
def poppedVals (rs : List Res) : List Nat :=
  rs.filterMap fun r =>
    match r with
    | Res.popR true v => some v
    | _ => none

/-- A capacity accepted by the static_assert and usable: a power of two
with at least two slots, representable in size_t. -/
def GoodCap (Cap : Nat) : Prop := ∃ m, Cap = 2 ^ m ∧ 1 ≤ m ∧ m ≤ 63

/-- The unique ring position congruent to cell index i that lies in the
window of length Capacity starting at the dequeue count D. -/
def cellPos (Cap D i : Nat) : Nat := D + (i + Cap - D % Cap) % Cap

/-- The single-threaded state invariant, relating the queue state to the
list of successfully pushed values and the list of successfully popped
values.  The occupancy is bounded by the capacity, the cursors are the
operation counts reduced modulo 2^64, the popped values are exactly the
first pushed values, and each cell at index i carries the sequence
counter of the unique ring position for i in the current window: the
position plus one with the pushed value stored if that position has
already been pushed, the bare position otherwise. -/
def Inv (Cap : Nat) (q : LFQ) (pushed popped : List Nat) : Prop :=
  popped.length ≤ pushed.length ∧
  pushed.length ≤ popped.length + Cap ∧
  q.enq = pushed.length % W ∧
  q.deq = popped.length % W ∧
  popped = pushed.take popped.length ∧
  ∀ i, i < Cap →
    (cellPos Cap popped.length i < pushed.length →
      q.seq i = (cellPos Cap popped.length i + 1) % W ∧
      q.data i = pushed.getD (cellPos Cap popped.length i) 0) ∧
    (pushed.length ≤ cellPos Cap popped.length i →
      q.seq i = cellPos Cap popped.length i % W)

/-- The four sequential values pushed in fill/drain cycle c. -/
def cycleVals (c : Nat) : List Nat := [4 * c, 4 * c + 1, 4 * c + 2, 4 * c + 3]

/-- One fill/drain cycle: push the four cycle values, then pop four
times. -/
def cycleOps (c : Nat) : List Op :=
  (cycleVals c).map Op.push ++ [Op.pop, Op.pop, Op.pop, Op.pop]

/-- The expected results of cycle c: every push succeeds and every pop
returns the matching value in order. -/
def cycleRes (c : Nat) : List Res :=
  ((cycleVals c).map fun v => Res.pushR v true) ++
    [Res.popR true (4 * c), Res.popR true (4 * c + 1),
     Res.popR true (4 * c + 2), Res.popR true (4 * c + 3)]

/-- n consecutive fill/drain cycles. -/
def cyclesOps : Nat → List Op
  | 0 => []
  | n + 1 => cyclesOps n ++ cycleOps n

/-- The expected results of n consecutive fill/drain cycles. -/
def cyclesRes : Nat → List Res
  | 0 => []
  | n + 1 => cyclesRes n ++ cycleRes n

/-- A queue state (not necessarily reachable) on which both a push and
a pop fail, used to witness the frame theorems. -/
def qFailW : LFQ :=
  { seq := fun _ => 4, data := fun _ => 0, enq := 5, deq := 7 }

/-! ### Arithmetic helper lemmas -/

theorem updF_same (f : Nat → Nat) (i v : Nat) : updF f i v i = v := by
  simp [updF]

theorem updF_other (f : Nat → Nat) {i j : Nat} (v : Nat) (h : j ≠ i) :
    updF f i v j = f j := by
  simp [updF, h]


theorem GoodCap.two_le {Cap : Nat} (h : GoodCap Cap) : 2 ≤ Cap := by
  obtain ⟨m, rfl, h1, _⟩ := h
  calc 2 = 2 ^ 1 := by norm_num
    _ ≤ 2 ^ m := Nat.pow_le_pow_right (by norm_num) h1

theorem GoodCap.pos {Cap : Nat} (h : GoodCap Cap) : 0 < Cap :=
  lt_of_lt_of_le (by norm_num) h.two_le

theorem GoodCap.le_half {Cap : Nat} (h : GoodCap Cap) : Cap ≤ HALF := by
  obtain ⟨m, rfl, _, h63⟩ := h
  exact Nat.pow_le_pow_right (by norm_num) h63

theorem GoodCap.lt_W {Cap : Nat} (h : GoodCap Cap) : Cap < W :=
  lt_of_le_of_lt h.le_half (by norm_num [HALF, W])

theorem GoodCap.dvd_W {Cap : Nat} (h : GoodCap Cap) : Cap ∣ W := by
  obtain ⟨m, rfl, _, h63⟩ := h
  exact pow_dvd_pow 2 (le_trans h63 (by norm_num))

theorem W_pos : 0 < W := by norm_num [W]

theorem half_add_half : (HALF : Int) + HALF = W := by norm_num [HALF, W]

theorem half_pos : (0 : Int) < HALF := by norm_num [HALF]

/-- wdiff only depends on its arguments modulo 2^64. -/
theorem wdiff_congr {x x' y y' : Nat} (hx : x % W = x' % W)
    (hy : y % W = y' % W) : wdiff x y = wdiff x' y' := by
  have key : ∀ a b : Nat, ((a : Int) - b + HALF) % W =
      ((a % W : Nat) - ((b % W : Nat) : Int) + HALF) % W := by
    intro a b
    conv_lhs => rw [Int.add_emod, Int.sub_emod]
    conv_rhs => rw [Int.add_emod, Int.sub_emod]
    rw [Int.natCast_mod, Int.natCast_mod,
      Int.emod_emod_of_dvd _ dvd_rfl, Int.emod_emod_of_dvd _ dvd_rfl]
  unfold wdiff
  rw [key x y, key x' y', hx, hy]

/-- When the true difference fits in intptr_t, wdiff computes it
exactly. -/
theorem wdiff_eq {x y : Nat} (h1 : -(HALF : Int) ≤ (x : Int) - y)
    (h2 : (x : Int) - y < HALF) : wdiff x y = (x : Int) - y := by
  unfold wdiff
  rw [Int.emod_eq_of_lt (by omega)
    (by have := half_add_half; omega)]
  omega

theorem wdiff_self (x : Nat) : wdiff x x = 0 := by
  rw [wdiff_eq (by omega) (by have := half_pos; omega)]
  omega

/-- For capacities in range, the MASK constant is Capacity - 1. -/
theorem MASKv_eq {Cap : Nat} (h1 : 1 ≤ Cap) (h2 : Cap < W) :
    MASKv Cap = Cap - 1 := by
  unfold MASKv
  have hW := W_pos
  have : Cap + (W - 1) = (Cap - 1) + W := by omega
  rw [this, Nat.add_mod_right, Nat.mod_eq_of_lt (by omega)]

/-- Indexing: the masked cursor is the cursor modulo the capacity. -/
theorem idx_eq {Cap : Nat} (hC : GoodCap Cap) (x : Nat) :
    (x % W) &&& MASKv Cap = x % Cap := by
  have hpos := hC.pos
  have hlt := hC.lt_W
  have hdvd := hC.dvd_W
  obtain ⟨m, hm, _, _⟩ := hC
  rw [MASKv_eq hpos hlt, hm, Nat.and_pow_two_sub_one_eq_mod,
    ← hm, Nat.mod_mod_of_dvd _ hdvd]

/-- Two naturals with equal residues lying within a window of length n
are equal. -/
theorem eq_of_mod_eq_of_close {n a b : Nat} (hn : 0 < n)
    (hmod : a % n = b % n) (hab : a < b + n) (hba : b < a + n) : a = b := by
  have hdvd : (n : Int) ∣ (b : Int) - (a : Int) := Nat.ModEq.dvd hmod
  obtain ⟨k, hk⟩ := hdvd
  have hn' : (0 : Int) < n := by exact_mod_cast hn
  have hcab : (a : Int) < b + n := by exact_mod_cast hab
  have hcba : (b : Int) < a + n := by exact_mod_cast hba
  rcases lt_trichotomy k 0 with hk0 | hk0 | hk0
  · have hle : (n : Int) * k ≤ n * (-1) :=
      mul_le_mul_of_nonneg_left (by omega) (le_of_lt hn')
    rw [mul_neg_one] at hle
    omega
  · subst hk0
    rw [mul_zero] at hk
    have : (a : Int) = b := by omega
    exact_mod_cast this
  · have hle : (n : Int) * 1 ≤ n * k :=
      mul_le_mul_of_nonneg_left (by omega) (le_of_lt hn')
    rw [mul_one] at hle
    omega

theorem cellPos_ge (Cap D i : Nat) : D ≤ cellPos Cap D i :=
  Nat.le_add_right _ _

theorem cellPos_lt {Cap : Nat} (h : 0 < Cap) (D i : Nat) :
    cellPos Cap D i < D + Cap :=
  Nat.add_lt_add_left (Nat.mod_lt _ h) D

theorem cellPos_mod {Cap i : Nat} (h : 0 < Cap) (hi : i < Cap) (D : Nat) :
    cellPos Cap D i % Cap = i := by
  unfold cellPos
  have hr : D % Cap ≤ Cap := le_of_lt (Nat.mod_lt _ h)
  have hrD : D % Cap ≤ D := Nat.mod_le _ _
  have hdm := Nat.div_add_mod D Cap
  calc (D + (i + Cap - D % Cap) % Cap) % Cap
      = (D % Cap + (i + Cap - D % Cap) % Cap % Cap) % Cap := Nat.add_mod _ _ _
    _ = (D % Cap + (i + Cap - D % Cap) % Cap) % Cap := by
        rw [Nat.mod_mod_of_dvd _ dvd_rfl]
    _ = (D + (i + Cap - D % Cap)) % Cap := (Nat.add_mod _ _ _).symm
    _ = (Cap * (D / Cap) + (i + Cap)) % Cap := by
        congr 1
        omega
    _ = (i + Cap) % Cap := Nat.mul_add_mod _ _ _
    _ = i % Cap := Nat.add_mod_right _ _
    _ = i := Nat.mod_eq_of_lt hi

/-- Characterization: cellPos is the unique position in the window
congruent to i. -/
theorem cellPos_eq_of {Cap D i p : Nat} (h : 0 < Cap) (hi : i < Cap)
    (hmod : p % Cap = i) (h1 : D ≤ p) (h2 : p < D + Cap) :
    cellPos Cap D i = p := by
  apply eq_of_mod_eq_of_close h
  · rw [cellPos_mod h hi, hmod]
  · exact lt_of_lt_of_le (cellPos_lt h D i) (by omega)
  · exact lt_of_lt_of_le h2 (by have := cellPos_ge Cap D i; omega)

/-! ### List helper lemmas -/

theorem getD_append_left {l₁ l₂ : List Nat} {i : Nat} (h : i < l₁.length)
    (d : Nat) : (l₁ ++ l₂).getD i d = l₁.getD i d := by
  rw [List.getD_eq_getElem?_getD, List.getD_eq_getElem?_getD,
    List.getElem?_append_left h]

theorem getD_append_length {l : List Nat} (v d : Nat) :
    (l ++ [v]).getD l.length d = v := by
  rw [List.getD_eq_getElem?_getD, List.getElem?_append_right (le_refl _)]
  simp

theorem take_append_left {l : List Nat} (v : Nat) {n : Nat}
    (h : n ≤ l.length) : (l ++ [v]).take n = l.take n := by
  rw [List.take_append_eq_append_take]
  simp [Nat.sub_eq_zero_of_le h]

theorem take_succ_getD {l : List Nat} {n : Nat} (h : n < l.length) :
    l.take (n + 1) = l.take n ++ [l.getD n 0] := by
  rw [List.take_succ, List.getElem?_eq_getElem h, List.getD_eq_getElem?_getD,
    List.getElem?_eq_getElem h]
  simp

/-! ### The reachability invariant -/

/-- A freshly constructed queue satisfies the invariant with no pushed
and no popped values. -/
theorem Inv_init {Cap : Nat} (hC : GoodCap Cap) : Inv Cap mkQueue [] [] := by
  have hpos := hC.pos
  have hltW := hC.lt_W
  refine ⟨le_refl _, by simp, rfl, rfl, rfl, ?_⟩
  intro i hi
  have hcp : cellPos Cap 0 i = i :=
    cellPos_eq_of hpos hi (Nat.mod_eq_of_lt hi) (Nat.zero_le _) (by omega)
  simp only [List.length_nil]
  constructor
  · intro h
    simp at h
  · intro _
    rw [hcp]
    show i = i % W
    rw [Nat.mod_eq_of_lt (by omega)]

/-! ### Step lemmas: behaviour of try_push and try_pop on invariant
states -/

/-- When the queue is not full, try_push succeeds in one loop iteration
and the invariant carries over with the value appended to the pushed
list. -/
theorem tryPush_ok {Cap : Nat} (hC : GoodCap Cap) {q : LFQ}
    {pushed popped : List Nat} (hI : Inv Cap q pushed popped)
    (hroom : pushed.length < popped.length + Cap) (v fuel : Nat) :
    ∃ q', tryPush Cap v (fuel + 1) q = some (q', true) ∧
      Inv Cap q' (pushed ++ [v]) popped := by
  obtain ⟨hDE, hED, henq, hdeq, htake, hcells⟩ := hI
  have hpos := hC.pos
  set E := pushed.length with hE
  set D := popped.length with hD
  have hiE : E % Cap < Cap := Nat.mod_lt _ hpos
  have hidx : (E % W) &&& MASKv Cap = E % Cap := idx_eq hC E
  have hcp : cellPos Cap D (E % Cap) = E :=
    cellPos_eq_of hpos hiE rfl hDE hroom
  have hseq : q.seq (E % Cap) = E % W := by
    have h2 := (hcells (E % Cap) hiE).2
    rw [hcp] at h2
    exact h2 (le_refl E)
  refine ⟨{ seq := updF q.seq (E % Cap) ((E % W + 1) % W),
            data := updF q.data (E % Cap) v,
            enq := (E % W + 1) % W, deq := q.deq }, ?_, ?_⟩
  · show tryPushLoop Cap v (fuel + 1) q q.enq = _
    rw [henq]
    simp only [tryPushLoop, hidx, hseq, wdiff_self, henq]
    norm_num
  · have hlen : (pushed ++ [v]).length = E + 1 := by simp [hE]
    unfold Inv
    dsimp only
    rw [hlen, ← hD]
    refine ⟨by omega, by omega, ?_, hdeq, ?_, ?_⟩
    · rw [Nat.mod_add_mod]
    · rw [take_append_left v hDE]
      exact htake
    · intro i hi
      by_cases hieq : i = E % Cap
      · subst hieq
        rw [hcp]
        constructor
        · intro _
          constructor
          · rw [updF_same, Nat.mod_add_mod]
          · rw [updF_same, hE, getD_append_length]
        · intro hle
          omega
      · have hmodi : cellPos Cap D i % Cap = i := cellPos_mod hpos hi D
        have hpne : cellPos Cap D i ≠ E := by
          intro hcontr
          rw [hcontr] at hmodi
          exact hieq hmodi.symm
        rw [updF_other _ _ hieq, updF_other _ _ hieq]
        constructor
        · intro hlt'
          have hlt : cellPos Cap D i < E := by omega
          obtain ⟨hs, hd⟩ := (hcells i hi).1 hlt
          refine ⟨hs, ?_⟩
          rw [hd, getD_append_left hlt]
        · intro hge'
          have hge : E ≤ cellPos Cap D i := by omega
          exact (hcells i hi).2 hge

/-- When the queue is full, try_push reports failure in one loop
iteration and leaves the state completely unchanged. -/
theorem tryPush_full {Cap : Nat} (hC : GoodCap Cap) {q : LFQ}
    {pushed popped : List Nat} (hI : Inv Cap q pushed popped)
    (hfull : pushed.length = popped.length + Cap) (v fuel : Nat) :
    tryPush Cap v (fuel + 1) q = some (q, false) := by
  obtain ⟨hDE, hED, henq, hdeq, htake, hcells⟩ := hI
  have hpos := hC.pos
  have hcap2 : (2 : Int) ≤ (Cap : Int) := by exact_mod_cast hC.two_le
  have hcapH : (Cap : Int) ≤ (HALF : Int) := by exact_mod_cast hC.le_half
  have hH := half_pos
  set E := pushed.length with hE
  set D := popped.length with hD
  have hiE : E % Cap < Cap := Nat.mod_lt _ hpos
  have hidx : (E % W) &&& MASKv Cap = E % Cap := idx_eq hC E
  have hmodE : E % Cap = D % Cap := by rw [hfull, Nat.add_mod_right]
  have hcp : cellPos Cap D (E % Cap) = D := by
    rw [hmodE]
    exact cellPos_eq_of hpos (Nat.mod_lt _ hpos) rfl (le_refl D) (by omega)
  have hDltE : D < E := by omega
  have hseq : q.seq (E % Cap) = (D + 1) % W := by
    have h1 := (hcells (E % Cap) hiE).1
    rw [hcp] at h1
    exact (h1 hDltE).1
  have hdiff : wdiff ((D + 1) % W) (E % W) = 1 - (Cap : Int) := by
    rw [wdiff_congr (Nat.mod_mod_of_dvd _ dvd_rfl) (Nat.mod_mod_of_dvd _ dvd_rfl)]
    rw [wdiff_eq (x := D + 1) (y := E) (by push_cast [hfull]; omega)
      (by push_cast [hfull]; omega)]
    push_cast [hfull]
    omega
  show tryPushLoop Cap v (fuel + 1) q q.enq = _
  rw [henq]
  simp only [tryPushLoop, hidx, hseq, hdiff]
  rw [if_neg (by omega : ¬(1 - (Cap : Int) = 0)),
    if_pos (by omega : 1 - (Cap : Int) < 0)]

/-- When the queue is nonempty, try_pop succeeds in one loop iteration,
returns the oldest unpopped value, and the invariant carries over with
that value appended to the popped list. -/
theorem tryPop_ok {Cap : Nat} (hC : GoodCap Cap) {q : LFQ}
    {pushed popped : List Nat} (hI : Inv Cap q pushed popped)
    (hne : popped.length < pushed.length) (fuel item : Nat) :
    ∃ q', tryPop Cap (fuel + 1) q item =
        some (q', true, pushed.getD popped.length 0) ∧
      Inv Cap q' pushed (popped ++ [pushed.getD popped.length 0]) := by
  obtain ⟨hDE, hED, henq, hdeq, htake, hcells⟩ := hI
  have hpos := hC.pos
  set E := pushed.length with hE
  set D := popped.length with hD
  have hiD : D % Cap < Cap := Nat.mod_lt _ hpos
  have hidx : (D % W) &&& MASKv Cap = D % Cap := idx_eq hC D
  have hcp : cellPos Cap D (D % Cap) = D :=
    cellPos_eq_of hpos hiD rfl (le_refl D) (by omega)
  have hfirst := (hcells (D % Cap) hiD).1
  rw [hcp] at hfirst
  obtain ⟨hs, hd⟩ := hfirst hne
  have hdiff : wdiff ((D + 1) % W) (D % W + 1) = 0 := by
    rw [wdiff_congr (Nat.mod_mod_of_dvd _ dvd_rfl) (Nat.mod_add_mod D W 1)]
    exact wdiff_self (D + 1)
  have hrepub : (D % W + MASKv Cap + 1) % W = (D + Cap) % W := by
    rw [MASKv_eq hpos hC.lt_W]
    have heq : D % W + (Cap - 1) + 1 = D % W + Cap := by omega
    rw [heq, Nat.mod_add_mod]
  refine ⟨{ seq := updF q.seq (D % Cap) ((D % W + MASKv Cap + 1) % W),
            data := q.data, enq := q.enq, deq := (D % W + 1) % W }, ?_, ?_⟩
  · show tryPopLoop Cap (fuel + 1) q q.deq item = _
    rw [hdeq]
    simp only [tryPopLoop, hidx, hs, hdiff, hd, hdeq]
    norm_num
  · have hlen : (popped ++ [pushed.getD D 0]).length = D + 1 := by simp [hD]
    unfold Inv
    dsimp only
    rw [hlen, ← hE]
    refine ⟨by omega, by omega, henq, ?_, ?_, ?_⟩
    · rw [Nat.mod_add_mod]
    · rw [take_succ_getD hne, ← htake]
    · intro i hi
      by_cases hieq : i = D % Cap
      · subst hieq
        have hcp1 : cellPos Cap (D + 1) (D % Cap) = D + Cap :=
          cellPos_eq_of hpos hiD (Nat.add_mod_right D Cap) (by omega) (by omega)
        rw [hcp1]
        constructor
        · intro hlt
          omega
        · intro _
          rw [updF_same]
          exact hrepub
      · have hmodi : cellPos Cap D i % Cap = i := cellPos_mod hpos hi D
        have hpne : cellPos Cap D i ≠ D := by
          intro hcontr
          rw [hcontr] at hmodi
          exact hieq hmodi.symm
        have hcp1 : cellPos Cap (D + 1) i = cellPos Cap D i := by
          refine cellPos_eq_of hpos hi hmodi ?_ ?_
          · have := cellPos_ge Cap D i
            omega
          · have := cellPos_lt hpos D i
            omega
        rw [hcp1, updF_other _ _ hieq]
        exact hcells i hi

/-- When the queue is empty, try_pop reports failure in one loop
iteration, leaving both the state and the out-parameter unchanged. -/
theorem tryPop_empty {Cap : Nat} (hC : GoodCap Cap) {q : LFQ}
    {pushed popped : List Nat} (hI : Inv Cap q pushed popped)
    (hempty : popped.length = pushed.length) (fuel item : Nat) :
    tryPop Cap (fuel + 1) q item = some (q, false, item) := by
  obtain ⟨hDE, hED, henq, hdeq, htake, hcells⟩ := hI
  have hpos := hC.pos
  have hH := half_pos
  set E := pushed.length with hE
  set D := popped.length with hD
  have hiD : D % Cap < Cap := Nat.mod_lt _ hpos
  have hidx : (D % W) &&& MASKv Cap = D % Cap := idx_eq hC D
  have hcp : cellPos Cap D (D % Cap) = D :=
    cellPos_eq_of hpos hiD rfl (le_refl D) (by omega)
  have hs : q.seq (D % Cap) = D % W := by
    have h2 := (hcells (D % Cap) hiD).2
    rw [hcp] at h2
    exact h2 (by omega)
  have hdiff : wdiff (D % W) (D % W + 1) = -1 := by
    rw [wdiff_congr (Nat.mod_mod_of_dvd _ dvd_rfl) (Nat.mod_add_mod D W 1)]
    rw [wdiff_eq (x := D) (y := D + 1) (by push_cast; omega) (by push_cast; omega)]
    push_cast
    omega
  show tryPopLoop Cap (fuel + 1) q q.deq item = _
  rw [hdeq]
  simp only [tryPopLoop, hidx, hs, hdiff]
  rw [if_neg (by norm_num : ¬((-1 : Int) = 0)),
    if_pos (by norm_num : (-1 : Int) < 0)]

/-! ### Running call sequences preserves the invariant -/

theorem pushedVals_cons_true (v : Nat) (rs : List Res) :
    pushedVals (Res.pushR v true :: rs) = v :: pushedVals rs := rfl

theorem pushedVals_cons_false (v : Nat) (rs : List Res) :
    pushedVals (Res.pushR v false :: rs) = pushedVals rs := rfl

theorem pushedVals_cons_pop (b : Bool) (x : Nat) (rs : List Res) :
    pushedVals (Res.popR b x :: rs) = pushedVals rs := by
  cases b <;> rfl

theorem poppedVals_cons_true (x : Nat) (rs : List Res) :
    poppedVals (Res.popR true x :: rs) = x :: poppedVals rs := rfl

theorem poppedVals_cons_false (x : Nat) (rs : List Res) :
    poppedVals (Res.popR false x :: rs) = poppedVals rs := rfl

theorem poppedVals_cons_push (v : Nat) (b : Bool) (rs : List Res) :
    poppedVals (Res.pushR v b :: rs) = poppedVals rs := by
  cases b <;> rfl

/-- Any single-threaded call sequence executed from an invariant state
completes (with any positive per-call fuel) and preserves the
invariant, extending the pushed and popped lists by the values of the
successful calls. -/
theorem run_inv {Cap : Nat} (hC : GoodCap Cap) (fuel : Nat) :
    ∀ (ops : List Op) (q : LFQ) (pushed popped : List Nat),
      Inv Cap q pushed popped →
      ∃ q' rs, run Cap (fuel + 1) q ops = some (q', rs) ∧
        Inv Cap q' (pushed ++ pushedVals rs) (popped ++ poppedVals rs) := by
  intro ops
  induction ops with
  | nil =>
    intro q pushed popped hI
    exact ⟨q, [], rfl, by simpa [pushedVals, poppedVals] using hI⟩
  | cons op ops ih =>
    intro q pushed popped hI
    cases op with
    | push v =>
      rcases Nat.lt_or_ge pushed.length (popped.length + Cap) with hroom | hfull'
      · obtain ⟨q1, hstep, hI1⟩ := tryPush_ok hC hI hroom v fuel
        obtain ⟨q', rs, hrun, hI'⟩ := ih q1 (pushed ++ [v]) popped hI1
        refine ⟨q', Res.pushR v true :: rs, ?_, ?_⟩
        · simp only [run, stepOp, hstep, Option.map_some', hrun]
        · rw [pushedVals_cons_true, poppedVals_cons_push]
          rw [show pushed ++ v :: pushedVals rs = (pushed ++ [v]) ++ pushedVals rs
            by simp]
          exact hI'
      · have hfull : pushed.length = popped.length + Cap :=
          le_antisymm hI.2.1 hfull'
        have hstep := tryPush_full hC hI hfull v fuel
        obtain ⟨q', rs, hrun, hI'⟩ := ih q pushed popped hI
        refine ⟨q', Res.pushR v false :: rs, ?_, ?_⟩
        · simp only [run, stepOp, hstep, Option.map_some', hrun]
        · rw [pushedVals_cons_false, poppedVals_cons_push]
          exact hI'
    | pop =>
      rcases Nat.lt_or_ge popped.length pushed.length with hne | hge
      · obtain ⟨q1, hstep, hI1⟩ := tryPop_ok hC hI hne fuel 0
        obtain ⟨q', rs, hrun, hI'⟩ :=
          ih q1 pushed (popped ++ [pushed.getD popped.length 0]) hI1
        refine ⟨q', Res.popR true (pushed.getD popped.length 0) :: rs, ?_, ?_⟩
        · simp only [run, stepOp, hstep, Option.map_some', hrun]
        · rw [poppedVals_cons_true, pushedVals_cons_pop]
          rw [show popped ++ pushed.getD popped.length 0 :: poppedVals rs =
            (popped ++ [pushed.getD popped.length 0]) ++ poppedVals rs by simp]
          exact hI'
      · have hempty : popped.length = pushed.length := le_antisymm hI.1 hge
        have hstep := tryPop_empty hC hI hempty fuel 0
        obtain ⟨q', rs, hrun, hI'⟩ := ih q pushed popped hI
        refine ⟨q', Res.popR false 0 :: rs, ?_, ?_⟩
        · simp only [run, stepOp, hstep, Option.map_some', hrun]
        · rw [poppedVals_cons_false, pushedVals_cons_pop]
          exact hI'

/-- With zero fuel only the empty call sequence completes. -/
theorem run_zero_fuel {Cap : Nat} {q q' : LFQ} {ops : List Op}
    {rs : List Res} (h : run Cap 0 q ops = some (q', rs)) :
    q' = q ∧ rs = [] ∧ ops = [] := by
  cases ops with
  | nil =>
    simp only [run, Option.some_inj, Prod.mk.injEq] at h
    exact ⟨h.1.symm, h.2.symm, rfl⟩
  | cons op ops =>
    exfalso
    cases op <;> simp [run, stepOp, tryPush, tryPop, tryPushLoop, tryPopLoop] at h

/-- Master theorem: every completed single-threaded execution from a
fresh queue lands in a state satisfying the invariant for its lists of
successfully pushed and popped values. -/
theorem run_from_init {Cap : Nat} (hC : GoodCap Cap) {fuel : Nat}
    {ops : List Op} {q : LFQ} {rs : List Res}
    (h : run Cap fuel mkQueue ops = some (q, rs)) :
    Inv Cap q (pushedVals rs) (poppedVals rs) := by
  cases fuel with
  | zero =>
    obtain ⟨rfl, rfl, rfl⟩ := run_zero_fuel h
    simpa [pushedVals, poppedVals] using Inv_init hC
  | succ fl =>
    obtain ⟨q', rs', hrun, hI⟩ := run_inv hC fl ops mkQueue [] [] (Inv_init hC)
    rw [h] at hrun
    simp only [Option.some_inj, Prod.mk.injEq] at hrun
    obtain ⟨rfl, rfl⟩ := hrun
    simpa using hI

/-! ### Composing runs -/

theorem run_cons_of {Cap fuel : Nat} {q q' : LFQ} {op : Op} {r : Res}
    (ops : List Op) (h : stepOp Cap fuel q op = some (q', r)) :
    run Cap fuel q (op :: ops) =
      (run Cap fuel q' ops).map fun x => (x.1, r :: x.2) := by
  simp [run, h]

theorem run_append {Cap fuel : Nat} : ∀ (l1 : List Op) (q : LFQ) (l2 : List Op),
    run Cap fuel q (l1 ++ l2) =
      (run Cap fuel q l1).bind fun x =>
        (run Cap fuel x.1 l2).map fun y => (y.1, x.2 ++ y.2) := by
  intro l1
  induction l1 with
  | nil =>
    intro q l2
    cases hr : run Cap fuel q l2 <;> simp [run, hr]
  | cons op l1 ih =>
    intro q l2
    cases hs : stepOp Cap fuel q op with
    | none => simp [run, hs]
    | some x =>
      obtain ⟨q1, r⟩ := x
      rw [List.cons_append, run_cons_of _ hs, run_cons_of _ hs, ih q1 l2]
      cases hr : run Cap fuel q1 l1 with
      | none => simp
      | some y =>
        obtain ⟨q2, rs1⟩ := y
        cases hr2 : run Cap fuel q2 l2 <;> simp [hr2]

/-- A failing try_push loop never modifies the queue, with any fuel and
from any starting state. -/
theorem tryPushLoop_fail_frame {Cap v : Nat} : ∀ {fuel pos : Nat} {q q' : LFQ},
    tryPushLoop Cap v fuel q pos = some (q', false) → q' = q := by
  intro fuel
  induction fuel with
  | zero =>
    intro pos q q' h
    simp [tryPushLoop] at h
  | succ fl ih =>
    intro pos q q' h
    simp only [tryPushLoop] at h
    by_cases h0 : wdiff (q.seq (pos &&& MASKv Cap)) pos = 0
    · rw [if_pos h0] at h
      by_cases hc : q.enq = pos
      · rw [if_pos hc] at h
        simp at h
      · rw [if_neg hc] at h
        exact ih h
    · rw [if_neg h0] at h
      by_cases hneg : wdiff (q.seq (pos &&& MASKv Cap)) pos < 0
      · rw [if_pos hneg] at h
        simp only [Option.some_inj, Prod.mk.injEq] at h
        exact h.1.symm
      · rw [if_neg hneg] at h
        exact ih h

/-- A failing try_pop loop never modifies the queue nor the
out-parameter, with any fuel and from any starting state. -/
theorem tryPopLoop_fail_frame {Cap : Nat} :
    ∀ {fuel pos item item' : Nat} {q q' : LFQ},
    tryPopLoop Cap fuel q pos item = some (q', false, item') →
      q' = q ∧ item' = item := by
  intro fuel
  induction fuel with
  | zero =>
    intro pos item item' q q' h
    simp [tryPopLoop] at h
  | succ fl ih =>
    intro pos item item' q q' h
    simp only [tryPopLoop] at h
    by_cases h0 : wdiff (q.seq (pos &&& MASKv Cap)) (pos + 1) = 0
    · rw [if_pos h0] at h
      by_cases hc : q.deq = pos
      · rw [if_pos hc] at h
        simp at h
      · rw [if_neg hc] at h
        exact ih h
    · rw [if_neg h0] at h
      by_cases hneg : wdiff (q.seq (pos &&& MASKv Cap)) (pos + 1) < 0
      · rw [if_pos hneg] at h
        simp only [Option.some_inj, Prod.mk.injEq] at h
        exact ⟨h.1.symm, h.2.2.symm⟩
      · rw [if_neg hneg] at h
        exact ih h

/-- Running a block of pushes from an invariant state with enough free
slots: every push succeeds and the values are appended in order. -/
theorem run_pushes {Cap : Nat} (hC : GoodCap Cap) (fuel : Nat) :
    ∀ (vs : List Nat) (q : LFQ) (pushed popped : List Nat),
      Inv Cap q pushed popped →
      pushed.length + vs.length ≤ popped.length + Cap →
      ∃ q', run Cap (fuel + 1) q (vs.map Op.push) =
          some (q', vs.map fun v => Res.pushR v true) ∧
        Inv Cap q' (pushed ++ vs) popped := by
  intro vs
  induction vs with
  | nil =>
    intro q pushed popped hI _
    exact ⟨q, rfl, by simpa⟩
  | cons v vs ih =>
    intro q pushed popped hI hle
    simp only [List.length_cons] at hle
    obtain ⟨q1, hstep, hI1⟩ := tryPush_ok hC hI (by omega) v fuel
    have hlen1 : (pushed ++ [v]).length = pushed.length + 1 := by simp
    obtain ⟨q', hrun, hI'⟩ := ih q1 (pushed ++ [v]) popped hI1 (by omega)
    refine ⟨q', ?_, by simpa [List.append_assoc] using hI'⟩
    have hstepOp : stepOp Cap (fuel + 1) q (Op.push v) =
        some (q1, Res.pushR v true) := by
      simp only [stepOp, hstep, Option.map_some']
    rw [List.map_cons, run_cons_of _ hstepOp, hrun]
    rfl

theorem range_getD {m i : Nat} (h : i < m) : (List.range m).getD i 0 = i := by
  rw [List.getD_eq_getElem?_getD, List.getElem?_range h]
  rfl

/-- Full/empty boundary behaviour on a fresh queue of any good
capacity: the initial pop fails, Capacity pushes succeed, the next push
fails, a pop then yields the first pushed value, and a further push
succeeds. -/
theorem boundary_behaviour {Cap : Nat} (hC : GoodCap Cap) {vs : List Nat}
    (hlen : vs.length = Cap) (x fuel : Nat) :
    ∃ q, run Cap (fuel + 1) mkQueue
        (Op.pop :: (vs.map Op.push ++ [Op.push x, Op.pop, Op.push x])) =
      some (q, Res.popR false 0 :: ((vs.map fun v => Res.pushR v true) ++
        [Res.pushR x false, Res.popR true (vs.getD 0 0),
         Res.pushR x true])) := by
  have hI0 := Inv_init hC
  have hpop0 : tryPop Cap (fuel + 1) mkQueue 0 = some (mkQueue, false, 0) :=
    tryPop_empty hC hI0 rfl fuel 0
  have hstep0 : stepOp Cap (fuel + 1) mkQueue Op.pop =
      some (mkQueue, Res.popR false 0) := by
    simp only [stepOp, hpop0, Option.map_some']
  obtain ⟨q1, hrun1, hI1⟩ := run_pushes hC fuel vs mkQueue [] [] hI0
    (by simp [hlen])
  rw [List.nil_append] at hI1
  have hfullpush : tryPush Cap x (fuel + 1) q1 = some (q1, false) :=
    tryPush_full hC hI1 (by simp [hlen]) x fuel
  have hstep2 : stepOp Cap (fuel + 1) q1 (Op.push x) =
      some (q1, Res.pushR x false) := by
    simp only [stepOp, hfullpush, Option.map_some']
  obtain ⟨q2, hpop1, hI2⟩ := tryPop_ok hC hI1
    (by simp only [List.length_nil, hlen]; exact hC.pos) fuel 0
  simp only [List.length_nil] at hpop1 hI2
  have hstep3 : stepOp Cap (fuel + 1) q1 Op.pop =
      some (q2, Res.popR true (vs.getD 0 0)) := by
    simp only [stepOp, hpop1, Option.map_some']
  obtain ⟨q3, hpush3, hI3⟩ := tryPush_ok hC hI2
    (by simp [hlen, hC.pos]) x fuel
  have hstep4 : stepOp Cap (fuel + 1) q2 (Op.push x) =
      some (q3, Res.pushR x true) := by
    simp only [stepOp, hpush3, Option.map_some']
  refine ⟨q3, ?_⟩
  rw [run_cons_of _ hstep0, run_append, hrun1]
  simp only [Option.some_bind]
  rw [run_cons_of _ hstep2, run_cons_of _ hstep3, run_cons_of _ hstep4]
  simp [run]

/-! ### Fill/drain cycles on a capacity-4 queue (wraparound) -/

theorem good4 : GoodCap 4 := ⟨2, rfl, by norm_num, by norm_num⟩

theorem range_append_four (n : Nat) :
    List.range (4 * n) ++ [4 * n, 4 * n + 1, 4 * n + 2, 4 * n + 3] =
      List.range (4 * n + 4) := by
  rw [List.range_add]
  rfl

theorem cycles_aux (fuel : Nat) : ∀ n : Nat,
    ∃ q, run 4 (fuel + 1) mkQueue (cyclesOps n) = some (q, cyclesRes n) ∧
      Inv 4 q (List.range (4 * n)) (List.range (4 * n)) := by
  intro n
  induction n with
  | zero => exact ⟨mkQueue, rfl, by simpa using Inv_init good4⟩
  | succ n ih =>
    obtain ⟨q0, hrun0, hI0⟩ := ih
    have hlenR : (List.range (4 * n)).length = 4 * n := List.length_range _
    -- the four pushes of cycle n
    obtain ⟨q1, hrunP, hI1⟩ := run_pushes good4 fuel (cycleVals n) q0
      (List.range (4 * n)) (List.range (4 * n)) hI0
      (by simp [cycleVals, hlenR])
    simp only [cycleVals] at hI1
    rw [range_append_four] at hI1
    have hlenR4 : (List.range (4 * n + 4)).length = 4 * n + 4 :=
      List.length_range _
    -- pop 1
    obtain ⟨p1, hpop1, hJ1⟩ := tryPop_ok good4 hI1
      (by rw [hlenR, hlenR4]; omega) fuel 0
    have hv1 : (List.range (4 * n + 4)).getD (List.range (4 * n)).length 0 =
        4 * n := by
      rw [hlenR]
      exact range_getD (by omega)
    rw [hv1] at hpop1 hJ1
    -- pop 2
    have hl1 : (List.range (4 * n) ++ [4 * n]).length = 4 * n + 1 := by
      simp [hlenR]
    obtain ⟨p2, hpop2, hJ2⟩ := tryPop_ok good4 hJ1
      (by rw [hl1, hlenR4]; omega) fuel 0
    have hv2 : (List.range (4 * n + 4)).getD
        (List.range (4 * n) ++ [4 * n]).length 0 = 4 * n + 1 := by
      rw [hl1]
      exact range_getD (by omega)
    rw [hv2] at hpop2 hJ2
    -- pop 3
    have hl2 : ((List.range (4 * n) ++ [4 * n]) ++ [4 * n + 1]).length =
        4 * n + 2 := by simp [hlenR]
    obtain ⟨p3, hpop3, hJ3⟩ := tryPop_ok good4 hJ2
      (by rw [hl2, hlenR4]; omega) fuel 0
    have hv3 : (List.range (4 * n + 4)).getD
        ((List.range (4 * n) ++ [4 * n]) ++ [4 * n + 1]).length 0 =
        4 * n + 2 := by
      rw [hl2]
      exact range_getD (by omega)
    rw [hv3] at hpop3 hJ3
    -- pop 4
    have hl3 : (((List.range (4 * n) ++ [4 * n]) ++ [4 * n + 1]) ++
        [4 * n + 2]).length = 4 * n + 3 := by simp [hlenR]
    obtain ⟨p4, hpop4, hJ4⟩ := tryPop_ok good4 hJ3
      (by rw [hl3, hlenR4]; omega) fuel 0
    have hv4 : (List.range (4 * n + 4)).getD
        (((List.range (4 * n) ++ [4 * n]) ++ [4 * n + 1]) ++
          [4 * n + 2]).length 0 = 4 * n + 3 := by
      rw [hl3]
      exact range_getD (by omega)
    rw [hv4] at hpop4 hJ4
    -- the final popped list is the full range
    have hplist : (((List.range (4 * n) ++ [4 * n]) ++ [4 * n + 1]) ++
        [4 * n + 2]) ++ [4 * n + 3] = List.range (4 * n + 4) := by
      rw [← range_append_four]
      simp
    rw [hplist] at hJ4
    -- assemble the run
    have hstep1 : stepOp 4 (fuel + 1) q1 Op.pop =
        some (p1, Res.popR true (4 * n)) := by
      simp only [stepOp, hpop1, Option.map_some']
    have hstep2 : stepOp 4 (fuel + 1) p1 Op.pop =
        some (p2, Res.popR true (4 * n + 1)) := by
      simp only [stepOp, hpop2, Option.map_some']
    have hstep3 : stepOp 4 (fuel + 1) p2 Op.pop =
        some (p3, Res.popR true (4 * n + 2)) := by
      simp only [stepOp, hpop3, Option.map_some']
    have hstep4 : stepOp 4 (fuel + 1) p3 Op.pop =
        some (p4, Res.popR true (4 * n + 3)) := by
      simp only [stepOp, hpop4, Option.map_some']
    refine ⟨p4, ?_, ?_⟩
    · show run 4 (fuel + 1) mkQueue (cyclesOps n ++ cycleOps n) =
        some (p4, cyclesRes n ++ cycleRes n)
      rw [run_append, hrun0]
      simp only [Option.some_bind, cycleOps]
      rw [run_append, hrunP]
      simp only [Option.some_bind]
      rw [run_cons_of _ hstep1, run_cons_of _ hstep2, run_cons_of _ hstep3,
        run_cons_of _ hstep4]
      simp [run, cycleRes, cycleVals]
    · have h44 : 4 * (n + 1) = 4 * n + 4 := by ring
      rw [h44]
      exact hJ4

/-! ### Power-of-two characterization of the static_assert check -/

theorem pow_two_of_land_pred : ∀ c, 0 < c → c &&& (c - 1) = 0 → ∃ k, c = 2 ^ k := by
  intro c
  induction c using Nat.strong_induction_on with
  | _ c ih =>
    intro hc h
    rcases Nat.even_or_odd c with ⟨a, rfl⟩ | ⟨a, rfl⟩
    · have ha : 0 < a := by omega
      have hdiv : ((a + a) &&& (a + a - 1)) / 2 =
          (a + a) / 2 &&& (a + a - 1) / 2 := Nat.and_div_two
      have e1 : (a + a) / 2 = a := by omega
      have e2 : (a + a - 1) / 2 = a - 1 := by omega
      rw [h, e1, e2, Nat.zero_div] at hdiv
      obtain ⟨k, hk⟩ := ih a (by omega) ha hdiv.symm
      exact ⟨k + 1, by rw [hk]; ring⟩
    · rcases Nat.eq_zero_or_pos a with rfl | ha
      · exact ⟨0, by norm_num⟩
      · exfalso
        have hdiv : ((2 * a + 1) &&& (2 * a + 1 - 1)) / 2 =
            (2 * a + 1) / 2 &&& (2 * a + 1 - 1) / 2 := Nat.and_div_two
        have e1 : (2 * a + 1) / 2 = a := by omega
        have e2 : (2 * a + 1 - 1) / 2 = a := by omega
        rw [h, e1, e2, Nat.zero_div, Nat.and_self] at hdiv
        omega

/-- For positive representable capacities the static_assert check holds
exactly for the powers of two; Capacity = 0 also passes it. -/
theorem capacityCheck_iff {c : Nat} (hc : 0 < c) (hlt : c < W) :
    capacityCheck c = true ↔ ∃ k, c = 2 ^ k := by
  unfold capacityCheck
  rw [MASKv_eq hc hlt, beq_iff_eq]
  constructor
  · exact pow_two_of_land_pred c hc
  · rintro ⟨k, rfl⟩
    rw [Nat.and_pow_two_sub_one_eq_mod, Nat.mod_self]

/-! ### Supporting theorem for conservation over linearized executions -/

/-- Over any completed single-threaded call sequence that drains the
queue (equal numbers of successful pushes and pops), the popped values
are exactly the pushed values. -/
theorem drained_conservation {Cap : Nat} (hC : GoodCap Cap) (fuel : Nat)
    {ops : List Op} {q : LFQ} {rs : List Res}
    (h : run Cap fuel mkQueue ops = some (q, rs))
    (hdrained : (poppedVals rs).length = (pushedVals rs).length) :
    poppedVals rs = pushedVals rs := by
  have hI := run_from_init hC h
  have htake := hI.2.2.2.2.1
  rw [hdrained, List.take_length] at htake
  exact htake

/-! ### Claim theorems -/

/-- Claim C2 (counterexample): at Capacity = 1 — a power of two, so it
is accepted by the static_assert — the second consecutive try_push on a
fresh queue returns true instead of false, refuting the claimed
(C+1)-th-push-fails boundary for C = 1. -/
theorem lfq_full_empty_boundary_cex :
    capacityCheck 1 = true ∧
    (run 1 1 mkQueue [Op.push 1, Op.push 2]).map (fun o => o.2) =
      some [Res.pushR 1 true, Res.pushR 2 true] :=
  ⟨rfl, rfl⟩

/-- Claim C2 (amended to capacities at least 2): on a fresh queue of
power-of-two capacity C with 2 <= C <= 2^63, try_pop fails, C
consecutive try_push calls each succeed, the (C+1)-th fails, one
try_pop then returns the first pushed value, and a further try_push
succeeds. -/
theorem lfq_full_empty_boundary {Cap : Nat} (hC : GoodCap Cap)
    {vs : List Nat} (hlen : vs.length = Cap) (x fuel : Nat) :
    ∃ q, run Cap (fuel + 1) mkQueue
        (Op.pop :: (vs.map Op.push ++ [Op.push x, Op.pop, Op.push x])) =
      some (q, Res.popR false 0 :: ((vs.map fun v => Res.pushR v true) ++
        [Res.pushR x false, Res.popR true (vs.getD 0 0),
         Res.pushR x true])) :=
  boundary_behaviour hC hlen x fuel

theorem lfq_full_empty_boundary_witness :
    GoodCap 2 ∧ ([1, 2] : List Nat).length = 2 ∧
    ∃ q, run 2 1 mkQueue
        [Op.pop, Op.push 1, Op.push 2, Op.push 3, Op.pop, Op.push 3] =
      some (q, [Res.popR false 0, Res.pushR 1 true, Res.pushR 2 true,
        Res.pushR 3 false, Res.popR true 1, Res.pushR 3 true]) := by
  have hg : GoodCap 2 := ⟨1, rfl, le_refl 1, by norm_num⟩
  refine ⟨hg, rfl, ?_⟩
  obtain ⟨q, hq⟩ := lfq_full_empty_boundary hg
    (show ([1, 2] : List Nat).length = 2 from rfl) 3 0
  exact ⟨q, hq⟩

/-- Claim C4: wraparound correctness on a capacity-4 queue — for every
number n of fill/drain cycles, where cycle c pushes the four sequential
integers starting at 4c and then pops four times, every push succeeds
and every pop succeeds with the matching value in order. -/
theorem lfq_wraparound (n fuel : Nat) :
    ∃ q, run 4 (fuel + 1) mkQueue (cyclesOps n) = some (q, cyclesRes n) :=
  (cycles_aux fuel n).elim fun q h => ⟨q, h.1⟩

/-- Claim C6 (counterexample): at Capacity = 1 — accepted by the
static_assert — two consecutive pushes on a fresh queue both succeed,
so the resident count reaches 2, exceeding the capacity. -/
theorem lfq_bounded_occupancy_cex :
    capacityCheck 1 = true ∧
    (run 1 1 mkQueue [Op.push 10, Op.push 11]).map
        (fun o => (pushedVals o.2).length - (poppedVals o.2).length) =
      some 2 ∧ ¬(2 ≤ 1) :=
  ⟨rfl, rfl, by norm_num⟩

/-- Claim C6 (amended to capacities at least 2): in every state
reachable by a completed single-threaded call sequence on a fresh queue
of power-of-two capacity with 2 <= Capacity <= 2^63, the resident count
(successful pushes minus successful pops) lies between 0 and Capacity,
and the two cursors equal the respective operation counts reduced
modulo 2^64. -/
theorem lfq_bounded_occupancy {Cap : Nat} (hC : GoodCap Cap) (fuel : Nat)
    {ops : List Op} {q : LFQ} {rs : List Res}
    (h : run Cap fuel mkQueue ops = some (q, rs)) :
    (poppedVals rs).length ≤ (pushedVals rs).length ∧
    (pushedVals rs).length ≤ (poppedVals rs).length + Cap ∧
    q.enq = (pushedVals rs).length % W ∧
    q.deq = (poppedVals rs).length % W := by
  have hI := run_from_init hC h
  exact ⟨hI.1, hI.2.1, hI.2.2.1, hI.2.2.2.1⟩

theorem lfq_bounded_occupancy_witness :
    GoodCap 2 ∧ ∃ q rs, run 2 1 mkQueue [Op.push 9, Op.pop] = some (q, rs) ∧
      ((poppedVals rs).length ≤ (pushedVals rs).length ∧
       (pushedVals rs).length ≤ (poppedVals rs).length + 2 ∧
       q.enq = (pushedVals rs).length % W ∧
       q.deq = (poppedVals rs).length % W) := by
  have hg : GoodCap 2 := ⟨1, rfl, le_refl 1, by norm_num⟩
  refine ⟨hg, ?_⟩
  have hs : (run 2 1 mkQueue [Op.push 9, Op.pop]).isSome = true := rfl
  obtain ⟨out, hout⟩ := Option.isSome_iff_exists.mp hs
  exact ⟨out.1, out.2, by rw [hout],
    lfq_bounded_occupancy hg 1 (by rw [hout])⟩

/-- Claim C7: the static_assert condition
(Capacity & (Capacity - 1)) == 0 accepts Capacity = 0, although 0 is
not a power of two — the claimed rejection of every non-power-of-two
capacity including zero fails on the code.  (For positive representable
capacities the check does hold exactly for the powers of two.) -/
theorem lfq_capacity_check_accepts_zero :
    capacityCheck 0 = true ∧ (∀ k : Nat, 0 ≠ 2 ^ k) ∧
    ∀ c, 0 < c → c < W → (capacityCheck c = true ↔ ∃ k, c = 2 ^ k) := by
  refine ⟨rfl, ?_, fun c hc hlt => capacityCheck_iff hc hlt⟩
  intro k h
  have := pow_pos (show 0 < 2 by norm_num) k
  omega

/-- Claim C8: failure atomicity — whenever try_push returns false or
try_pop returns false, the queue state (both cursors, every cell
sequence counter and every cell payload) is exactly as before the
call. -/
theorem lfq_failure_atomicity (Cap v fuel : Nat) (q qp qq : LFQ)
    (item item' : Nat) :
    (tryPush Cap v fuel q = some (qp, false) → qp = q) ∧
    (tryPop Cap fuel q item = some (qq, false, item') → qq = q) :=
  ⟨fun h => tryPushLoop_fail_frame h, fun h => (tryPopLoop_fail_frame h).1⟩

theorem lfq_failure_atomicity_witness :
    tryPush 2 99 1 qFailW = some (qFailW, false) ∧
    tryPop 2 1 qFailW 0 = some (qFailW, false, 0) ∧
    qFailW = qFailW ∧ qFailW = qFailW := by
  refine ⟨rfl, rfl, ?_, ?_⟩
  · exact (lfq_failure_atomicity 2 99 1 qFailW qFailW qFailW 0 0).1 rfl
  · exact (lfq_failure_atomicity 2 99 1 qFailW qFailW qFailW 0 0).2 rfl

/-- Claim C9: when try_pop returns false, the out-parameter item is
left completely unmodified. -/
theorem lfq_pop_fail_item (Cap fuel : Nat) (q q' : LFQ) (item item' : Nat)
    (h : tryPop Cap fuel q item = some (q', false, item')) : item' = item :=
  (tryPopLoop_fail_frame h).2

theorem lfq_pop_fail_item_witness :
    tryPop 2 1 mkQueue 42 = some (mkQueue, false, 42) ∧ (42 : Nat) = 42 :=
  ⟨rfl, lfq_pop_fail_item 2 1 mkQueue mkQueue 42 42 rfl⟩

end LFQueue
